import Mathlib

/-!
Verification of the indexed data-access layer and vocabulary aggregation
pipeline of the `common` repository, via a shallow embedding of the Python
source into Lean.

Conventions of the embedding:
  - a relational table is a `List` of records; the store orders query results
    by the primary key, which we make explicit with `sortById`;
  - Python integers are `Int` (they are unbounded); row counts are `Nat`;
  - a Python function that can raise becomes `Except String _`, the string
    naming the exception class raised at that point;
  - `None` results (absent / NotFound) become `Option.none`;
  - a transactional unit of work that commits or rolls back in full becomes a
    function returning either the new table (`Except.ok`) or the raised error
    (`Except.error`), in which case the caller still holds the old table.
-/

namespace CommonSpec

/-- A generic entity record of an indexed collection, reduced to the one field
the access-layer queries inspect: the integer primary key `id`
(`Document.id` is an integer surrogate key in `src/models/document.py`). -/
structure Rec where
  id : Nat
deriving DecidableEq, Repr

/-- Insert a record into a list sorted ascending by `id`. -/
def insertById (r : Rec) : List Rec → List Rec
  | [] => [r]
  | x :: xs => if r.id ≤ x.id then r :: x :: xs else x :: insertById r xs

/-- The relational store returns rows ordered by the primary key when asked to
`order_by(model.id)`; `sortById` makes that ordering explicit on the list
holding the table rows. -/
def sortById (rows : List Rec) : List Rec :=
  rows.foldr insertById []

/-- Embeds `DB.find_by_index` (src/helpers/db.py lines 262-270) and the
identical `ServiceDB.find_by_index` (src/database/service.py lines 154-162):
order by `desc(id)` when `index < 0` else by `id`, apply
`offset = abs(index)` and `limit 1`, return `.first()` (the row or `None`).
`rows` is the list of rows visible to the collection (for an
index-restricted view, the restricted subset). -/
def find_by_index (rows : List Rec) (index : Int) : Option Rec :=
  let ordered := if index < 0 then (sortById rows).reverse else sortById rows
  (ordered.drop index.natAbs).head?

/-- A Python `slice` object as passed to `find_by_slice`; each bound is
`none` when absent. -/
structure Slice where
  start : Option Int
  stop : Option Int
  step : Option Int
deriving DecidableEq, Repr

/-- Python truthiness of an optional integer: `None` and `0` are falsy.
Used because `find_by_slice` guards with `if indexer.start:` and
`if indexer.stop and ...:`. -/
def optTruthy (o : Option Int) : Bool :=
  match o with
  | none => false
  | some v => decide (v ≠ 0)

/-- Embeds `DB.find_by_slice` (src/helpers/db.py lines 272-294) and the
identical `ServiceDB.find_by_slice` (src/database/service.py lines 164-186).
The source orders by `desc(id)` only when `indexer.step` is truthy and
negative; computes `db_size = len(self)`; when `indexer.start` is truthy it
applies `offset = (db_size + start) % db_size` (a `ZeroDivisionError` when
`db_size = 0`); when `indexer.stop` is truthy and `stop <= db_size` it
applies `limit = (db_size + stop) % db_size`, minus the offset when the
start was truthy, clamped below at 0.  The yielded records are the rows of
the resulting statement in order. -/
def find_by_slice (rows : List Rec) (indexer : Slice) : Except String (List Rec) :=
  let stepNeg : Bool :=
    match indexer.step with
    | some s => decide (s < 0)
    | none => false
  let ordered := if stepNeg then (sortById rows).reverse else sortById rows
  let dbSize : Int := (rows.length : Int)
  let offsetRes : Except String (Option Int) :=
    if optTruthy indexer.start then
      if dbSize = 0 then Except.error "ZeroDivisionError"
      else Except.ok (some ((dbSize + indexer.start.getD 0) % dbSize))
    else Except.ok none
  match offsetRes with
  | Except.error e => Except.error e
  | Except.ok off =>
    let afterOffset :=
      match off with
      | none => ordered
      | some o => ordered.drop o.toNat
    if optTruthy indexer.stop && decide (indexer.stop.getD 0 ≤ dbSize) then
      if dbSize = 0 then Except.error "ZeroDivisionError"
      else
        let lim0 := (dbSize + indexer.stop.getD 0) % dbSize
        let lim := match off with
          | none => lim0
          | some o => lim0 - o
        Except.ok (afterOffset.take (if lim ≥ 0 then lim else 0).toNat)
    else Except.ok afterOffset

/-- Embeds the integer branch of `SubscriptableGenerator.__getitem__`
(src/utils/itertools.py lines 18-24) for a generator constructed with a
known length, here the length of the backing list: raise `IndexError` when
`indexer >= len(self)`; otherwise return the element at
`(len(self) + indexer) % len(self)` via `islice` (a `ZeroDivisionError`
when the length is 0, a `StopIteration` if the slice were empty). -/
def sg_getitem_int {α : Type} (xs : List α) (i : Int) : Except String α :=
  let n : Int := (xs.length : Int)
  if i ≥ n then Except.error "IndexError"
  else if n = 0 then Except.error "ZeroDivisionError"
  else
    match xs[((n + i) % n).toNat]? with
    | some a => Except.ok a
    | none => Except.error "StopIteration"

/-- C1: the claim that `by_position(-1)` equals `by_position(N-1)` fails on
the code: for the one-record collection `[⟨5⟩]` (N = 1), `find_by_index`
at `-1` orders descending and then skips `abs(-1) = 1` rows, returning
`none`, while `find_by_index` at `N - 1 = 0` returns the record; on a
two-record collection, index `-1` returns the first record instead of the
last.  (The second half of the claim, `i ≥ N` gives NotFound, does hold:
index `1` on the one-record collection returns `none`.) -/
theorem c1_find_by_index_negative_off_by_one :
    find_by_index [⟨5⟩] (-1) = none ∧
    find_by_index [⟨5⟩] 0 = some ⟨5⟩ ∧
    find_by_index [⟨5⟩] (-1) ≠ find_by_index [⟨5⟩] 0 ∧
    find_by_index [⟨5⟩, ⟨6⟩] (-1) = some ⟨5⟩ ∧
    find_by_index [⟨5⟩] 1 = none := by
  decide

/-- C2: the claim that `by_slice(a, b)` with `0 ≤ a ≤ b ≤ N` yields exactly
`b - a` records fails on the code: on the one-record collection `[⟨5⟩]`,
the slice `[0:1]` (which should yield the single record, `b - a = 1`)
yields no records, because `stop = N` makes
`limit = (db_size + stop) % db_size = 0`; likewise `[0:3]` on a
three-record collection yields nothing, and `[0:0]` (which should be
empty) yields the whole collection because both bounds are falsy. -/
theorem c2_find_by_slice_full_slice_empty :
    find_by_slice [⟨5⟩] ⟨some 0, some 1, none⟩ = Except.ok [] ∧
    find_by_slice [⟨5⟩, ⟨6⟩, ⟨7⟩] ⟨some 0, some 3, none⟩ = Except.ok [] ∧
    find_by_slice [⟨5⟩] ⟨some 0, some 0, none⟩ = Except.ok [⟨5⟩] :=
  ⟨rfl, rfl, rfl⟩

/-- C8: the claim that an empty slice on any collection, including an empty
one, yields an empty sequence and never an error fails on the code: on an
empty collection the slice `[1:2]` (an empty selection in Python) raises
`ZeroDivisionError`, because the offset computation
`(db_size + start) % db_size` divides by `db_size = 0`; and on a
one-record collection the empty slice `[0:0]` yields the whole
collection rather than an empty sequence. -/
theorem c8_find_by_slice_empty_collection_raises :
    find_by_slice ([] : List Rec) ⟨some 1, some 2, none⟩ =
      Except.error "ZeroDivisionError" ∧
    find_by_slice [⟨5⟩] ⟨some 0, some 0, none⟩ = Except.ok [⟨5⟩] :=
  ⟨rfl, rfl⟩

/-- C10: for a `SubscriptableGenerator` of known length `N ≥ 1`, integer
indexing with `i ≥ N` raises `IndexError`, and indexing with any negative
integer `i` — including `i < -N` — never raises and returns the element at
position `(N + i) % N`. -/
theorem c10_sg_getitem_int_spec {α : Type} (xs : List α) (i : Int)
    (hlen : 1 ≤ xs.length) :
    (i ≥ (xs.length : Int) → sg_getitem_int xs i = Except.error "IndexError") ∧
    (i < 0 → ∃ a,
      xs[(((xs.length : Int) + i) % (xs.length : Int)).toNat]? = some a ∧
      sg_getitem_int xs i = Except.ok a) := by
  constructor
  · intro hge
    simp only [sg_getitem_int]
    rw [if_pos hge]
  · intro hneg
    have hn0 : (0 : Int) < (xs.length : Int) := by exact_mod_cast hlen
    have hne : (xs.length : Int) ≠ 0 := ne_of_gt hn0
    have hlt : ¬ i ≥ (xs.length : Int) := by omega
    have hmodlt : ((xs.length : Int) + i) % (xs.length : Int) < (xs.length : Int) :=
      Int.emod_lt_of_pos _ hn0
    have hmodge : 0 ≤ ((xs.length : Int) + i) % (xs.length : Int) :=
      Int.emod_nonneg _ hne
    have hidx : (((xs.length : Int) + i) % (xs.length : Int)).toNat < xs.length := by
      omega
    refine ⟨xs.get ⟨_, hidx⟩, ?_, ?_⟩
    · exact List.getElem?_eq_getElem hidx
    · simp only [sg_getitem_int]
      rw [if_neg hlt, if_neg (by exact_mod_cast hne)]
      rw [List.getElem?_eq_getElem hidx]
      rfl

/-- Witness for C10 at a concrete input: the list `[10, 20, 30]` (length 3)
with index `-5`; position `(3 + (-5)) % 3 = 1` holds the element `20`. -/
theorem c10_sg_getitem_int_spec_witness :
    1 ≤ ([10, 20, 30] : List Nat).length ∧
    (∃ a, ([10, 20, 30] : List Nat)[((((10:Nat) :: [20, 30]).length : Int) + (-5)) % (((10:Nat) :: [20, 30]).length : Int) |>.toNat]? = some a ∧
      sg_getitem_int ([10, 20, 30] : List Nat) (-5) = Except.ok a) := by
  exact ⟨by decide,
    (c10_sg_getitem_int_spec ([10, 20, 30] : List Nat) (-5) (by decide)).2 (by decide)⟩

/-! ## NGram records, the merge worker and bulk upsert -/

/-- An `NGram` row (src/models/ngram.py): `id` is the md5 hexdigest of the
ngram string (column default `hash_id`), so a freshly constructed, not yet
inserted record has no id, modeled as `none`; `ngram` is the string;
`frequency` and `occurence` are the two counters (the source spells
occurrence without the double r). The `embedding` relationship plays no
role in the claims and is omitted. -/
structure NGramRec where
  id : Option String
  ngram : String
  frequency : Int
  occurence : Int
deriving DecidableEq, Repr

/-- Deterministic stand-in digest used only to instantiate hash-parametric
theorems at concrete inputs.  The source `MixinORM.hash` delegates to the
external `hashlib.md5` hexdigest, which is outside this repository; every
definition below therefore takes the digest as a function parameter
`hash`, and the claims depend only on it being a fixed function. -/
def digestStandIn (s : String) : String := "h" ++ s

/-- Embeds `process_ngrams` (src/controllers/corpus.py lines 23-41), the body
of the concurrent merge worker for one `(ngram, frequency)` pair: fetch the
row by primary key `hash(ngram)`; if found, add `frequency` to its counter;
if not, construct `NGram(ngram, frequency)` (occurence defaults to 0); in
both cases increment `occurence` by 1 and return the record.  The
`OperationalError` retry loop re-runs the same pure body, so the success
path is a single pass. -/
def process_ngrams (hash : String → String) (table : List NGramRec)
    (data : String × Int) : NGramRec :=
  match table.find? (fun r => decide (r.id = some (hash data.1))) with
  | some r => { r with frequency := r.frequency + data.2, occurence := r.occurence + 1 }
  | none => { id := none, ngram := data.1, frequency := data.2, occurence := 1 }

/-- One UPDATE emitted by `session.bulk_save_objects` for a record that has an
identity: every row whose primary key equals the record id takes the record
values (an UPDATE matching no row is a no-op). -/
def applyUpdate (table : List NGramRec) (it : NGramRec) : List NGramRec :=
  table.map (fun r => if r.id = it.id then it else r)

/-- One INSERT flushed at commit for a record without an identity: the store
computes the id column default `hash_id` (the digest of the ngram string)
and appends the row, unless the primary-key constraint on `id` or the
unique constraint on `ngram` is violated, which raises an
`IntegrityError` that aborts the whole transaction. -/
def applyInsert (hash : String → String) (table : List NGramRec)
    (it : NGramRec) : Except String (List NGramRec) :=
  let newRow : NGramRec := { it with id := some (hash it.ngram) }
  if table.any (fun r => decide (r.id = newRow.id) || decide (r.ngram = newRow.ngram)) then
    Except.error "IntegrityError"
  else Except.ok (table ++ [newRow])

/-- Flush the pending INSERTs in order inside one transaction; the first
constraint violation aborts and rolls back the transaction. -/
def insertAll (hash : String → String) :
    List NGramRec → List NGramRec → Except String (List NGramRec)
  | [], table => Except.ok table
  | it :: rest, table =>
    match applyInsert hash table it with
    | Except.error e => Except.error e
    | Except.ok t' => insertAll hash rest t'

/-- Embeds `DB.bulk_update` (src/helpers/db.py lines 232-244) and the
identical `ServiceDB.bulk_update` (src/database/service.py lines 105-117):
partition the input into `old_items` (identity present, written as UPDATEs
by `bulk_save_objects`, which emits immediately) and `new_items` (no
identity, registered by `add_all` and flushed as INSERTs at the final
`commit`), all in one transaction that rolls back in full on error, in
which case the caller still observes the old table. -/
def bulk_update (hash : String → String) (table : List NGramRec)
    (items : List NGramRec) : Except String (List NGramRec) :=
  let old_items := items.filter (fun it => decide (it.id ≠ none))
  let new_items := items.filter (fun it => decide (it.id = none))
  insertAll hash new_items (old_items.foldl applyUpdate table)

/-- Well-formedness of a persisted ngram table: every stored row carries the
digest of its own string as identity (the column default guarantees this),
and no two rows share an identity (primary-key uniqueness). -/
def wfTable (hash : String → String) (t : List NGramRec) : Prop :=
  (∀ r ∈ t, r.id = some (hash r.ngram)) ∧ (t.map NGramRec.id).Nodup

theorem applyUpdate_id (it x : NGramRec) :
    (if x.id = it.id then it else x).id = x.id := by
  by_cases h : x.id = it.id <;> simp [h]

theorem find?_applyUpdate (t : List NGramRec) (it : NGramRec) (v : Option String) :
    (applyUpdate t it).find? (fun x => decide (x.id = v)) =
      (t.find? (fun x => decide (x.id = v))).map
        (fun x => if x.id = it.id then it else x) := by
  unfold applyUpdate
  rw [List.find?_map]
  have hfun : ((fun x => decide (x.id = v)) ∘
        fun r : NGramRec => if r.id = it.id then it else r) =
      fun x : NGramRec => decide (x.id = v) := by
    funext x
    by_cases h : x.id = it.id <;> simp [Function.comp, h]
  rw [hfun]

theorem bulk_update_single_old (hash : String → String) (t : List NGramRec)
    (x : NGramRec) (hx : x.id ≠ none) :
    bulk_update hash t [x] = Except.ok (applyUpdate t x) := by
  simp [bulk_update, insertAll, List.filter, hx]

theorem bulk_update_single_new (hash : String → String) (t : List NGramRec)
    (x : NGramRec) (hx : x.id = none) :
    bulk_update hash t [x] = insertAll hash [x] t := by
  simp [bulk_update, List.filter, hx]

theorem process_ngrams_found (hash : String → String) (t : List NGramRec)
    (g : String) (f : Int) (r : NGramRec)
    (hfind : t.find? (fun x => decide (x.id = some (hash g))) = some r) :
    process_ngrams hash t (g, f) =
      { r with frequency := r.frequency + f, occurence := r.occurence + 1 } := by
  simp only [process_ngrams, hfind]

/-- The row produced by inserting a fresh worker record for the pair
`(g, f)`: the id column default computes the digest of the string. -/
def freshRow (hash : String → String) (g : String) (f : Int) : NGramRec :=
  { id := some (hash g), ngram := g, frequency := f, occurence := 1 }

theorem process_ngrams_notfound (hash : String → String) (t : List NGramRec)
    (g : String) (f : Int)
    (hfind : t.find? (fun x => decide (x.id = some (hash g))) = none) :
    process_ngrams hash t (g, f) =
      { id := none, ngram := g, frequency := f, occurence := 1 } := by
  simp only [process_ngrams, hfind]

/-- C3: the merge worker on a pair `(g, f)`: if the table holds a row with
identity `hash g` and counters `(F, O)`, the worker produces that row with
counters `(F + f, O + 1)`; if it holds none, the worker produces a fresh
record with counters `(f, 1)`; and merging the same pair a second time
after committing the first result through `bulk_update` (no intervening
reset) yields the frequency summed twice and the occurrence incremented
twice. -/
theorem c3_process_ngrams_merge (hash : String → String) (t : List NGramRec)
    (g : String) (f : Int) (hwf : wfTable hash t) :
    (∀ r, t.find? (fun x => decide (x.id = some (hash g))) = some r →
        process_ngrams hash t (g, f) =
          { r with frequency := r.frequency + f, occurence := r.occurence + 1 }) ∧
    (t.find? (fun x => decide (x.id = some (hash g))) = none →
        process_ngrams hash t (g, f) =
          { id := none, ngram := g, frequency := f, occurence := 1 }) ∧
    (∃ t', bulk_update hash t [process_ngrams hash t (g, f)] = Except.ok t' ∧
        (process_ngrams hash t' (g, f)).frequency =
          (process_ngrams hash t (g, f)).frequency + f ∧
        (process_ngrams hash t' (g, f)).occurence =
          (process_ngrams hash t (g, f)).occurence + 1) := by
  refine ⟨?_, ?_, ?_⟩
  · intro r hr
    exact process_ngrams_found hash t g f r hr
  · intro hr
    exact process_ngrams_notfound hash t g f hr
  · cases hfind : t.find? (fun x => decide (x.id = some (hash g))) with
    | some r =>
      have hrid : r.id = some (hash g) := by
        have h1 := List.find?_some hfind
        simpa using h1
      have hpn := process_ngrams_found hash t g f r hfind
      have hpnid : (process_ngrams hash t (g, f)).id = r.id := by
        rw [hpn]
      have hne : (process_ngrams hash t (g, f)).id ≠ none := by
        rw [hpnid, hrid]
        simp
      have hfind2 : (applyUpdate t (process_ngrams hash t (g, f))).find?
            (fun x => decide (x.id = some (hash g))) =
          some (process_ngrams hash t (g, f)) := by
        rw [find?_applyUpdate, hfind]
        simp only [Option.map_some']
        rw [if_pos hpnid.symm]
      have h2 := process_ngrams_found hash
        (applyUpdate t (process_ngrams hash t (g, f))) g f _ hfind2
      exact ⟨applyUpdate t (process_ngrams hash t (g, f)),
        bulk_update_single_old hash t _ hne, by rw [h2], by rw [h2]⟩
    | none =>
      have hnone : ∀ x ∈ t, ¬ x.id = some (hash g) := by
        intro x hx
        have h1 := List.find?_eq_none.mp hfind x hx
        simpa using h1
      have hpn := process_ngrams_notfound hash t g f hfind
      have hins : applyInsert hash t
          { id := none, ngram := g, frequency := f, occurence := 1 } =
          Except.ok (t ++ [freshRow hash g f]) := by
        unfold applyInsert
        rw [if_neg]
        · simp [freshRow]
        · simp only [List.any_eq_true, not_exists]
          intro x
          rintro ⟨hx, hor⟩
          rcases Bool.or_eq_true_iff.mp hor with h1 | h1
          · exact hnone x hx (by simpa using h1)
          · have hxg : x.ngram = g := by simpa using h1
            exact hnone x hx (by rw [hwf.1 x hx, hxg])
      have hbu : bulk_update hash t [process_ngrams hash t (g, f)] =
          Except.ok (t ++ [freshRow hash g f]) := by
        rw [hpn, bulk_update_single_new hash t _ rfl]
        simp [insertAll, hins]
      have hfind' : (t ++ [freshRow hash g f]).find?
            (fun x => decide (x.id = some (hash g))) =
          some (freshRow hash g f) := by
        rw [List.find?_append]
        rw [List.find?_eq_none.mpr (by intro x hx; simpa using hnone x hx)]
        simp [List.find?, freshRow]
      have h2 := process_ngrams_found hash
        (t ++ [freshRow hash g f]) g f _ hfind'
      refine ⟨_, hbu, ?_, ?_⟩
      all_goals rw [h2, hpn]
      all_goals simp [freshRow]

/-- Witness for C3 at a concrete input: the empty table, pair `("a", 2)`
with the stand-in digest; the hypotheses `wfTable` hold trivially. -/
theorem c3_process_ngrams_merge_witness :
    wfTable digestStandIn ([] : List NGramRec) ∧
    (∃ t', bulk_update digestStandIn []
        [process_ngrams digestStandIn [] ("a", 2)] = Except.ok t' ∧
      (process_ngrams digestStandIn t' ("a", 2)).frequency =
        (process_ngrams digestStandIn [] ("a", 2)).frequency + 2 ∧
      (process_ngrams digestStandIn t' ("a", 2)).occurence =
        (process_ngrams digestStandIn [] ("a", 2)).occurence + 1) := by
  have hwf : wfTable digestStandIn ([] : List NGramRec) := ⟨by simp, by simp⟩
  exact ⟨hwf, (c3_process_ngrams_merge digestStandIn [] "a" 2 hwf).2.2⟩

/-! ## Index-restricted views -/

/-- Embeds the custom-index normalization in `DB.__init__`
(src/helpers/db.py lines 136-141): a supplied index equal in size to the
full table degenerates to the unrestricted `None`; an empty index is kept
as the empty list; any other index is kept as is. -/
def mk_index (tableIds : List Nat) (index : Option (List Nat)) : Option (List Nat) :=
  match index with
  | none => none
  | some l =>
    if tableIds.length = l.length then none
    else if l.length = 0 then some []
    else some l

/-- Embeds the single-identity branch of `DB.find` (src/helpers/db.py lines
246-250): `None if (self._index and id not in self._index) else
session.get(model, id)`; the guard uses Python truthiness, so an empty
restriction list behaves like no restriction and the lookup falls through
to the backing table. -/
def db_find (table : List Rec) (index : Option (List Nat)) (i : Nat) : Option Rec :=
  match index with
  | some l =>
    if l ≠ [] ∧ i ∉ l then none
    else table.find? (fun r => decide (r.id = i))
  | none => table.find? (fun r => decide (r.id = i))

/-- Embeds `DB.__len__` (src/helpers/db.py lines 164-167): the cardinality of
the restriction when the index is custom, the table row count otherwise. -/
def db_len (table : List Rec) (index : Option (List Nat)) : Nat :=
  match index with
  | some l => l.length
  | none => table.length

/-- C4 counterexample: a view over the one-row backing table `[⟨7⟩]` built
from the empty restriction set is kept as a custom index and reports
length 0, yet `find 7` returns the backing row instead of the NotFound
result the claim requires for every identity (all of which lie outside
the empty restriction). -/
theorem c4_counterexample_empty_view_find :
    mk_index [7] (some []) = some [] ∧
    db_len [⟨7⟩] (some []) = 0 ∧
    db_find [⟨7⟩] (some []) 7 = some ⟨7⟩ ∧
    db_find [⟨7⟩] (some []) 7 ≠ none := by
  refine ⟨rfl, rfl, rfl, ?_⟩
  intro h
  exact Option.noConfusion h

/-- C4 amended: for a view with a nonempty restriction set, `find id` for an
identity outside the restriction returns NotFound even when the identity
exists in the backing table, and the view reports the cardinality of the
restriction as its length; a view built from an empty restriction set,
however, reports length 0 but its `find` bypasses the restriction (the
empty list is falsy in the guard) and queries the backing table
directly. -/
theorem c4_restricted_find_notfound (table : List Rec) (l : List Nat) (i : Nat)
    (hne : l ≠ []) (hout : i ∉ l) :
    db_find table (some l) i = none ∧
    db_len table (some l) = l.length ∧
    (∀ tbl j, db_find tbl (some ([] : List Nat)) j =
      tbl.find? (fun r => decide (r.id = j))) := by
  refine ⟨?_, rfl, ?_⟩
  · simp [db_find, hne, hout]
  · intro tbl j
    simp [db_find]

/-- Witness for C4 amended at a concrete input: backing table `[⟨7⟩]`,
restriction `[2]`, lookup of identity 7 (present in the backing table,
outside the restriction). -/
theorem c4_restricted_find_notfound_witness :
    ([2] : List Nat) ≠ [] ∧ (7 : Nat) ∉ ([2] : List Nat) ∧
    (db_find [⟨7⟩] (some [2]) 7 = none ∧
     db_len [⟨7⟩] (some [2]) = ([2] : List Nat).length ∧
     (∀ tbl j, db_find tbl (some ([] : List Nat)) j =
       tbl.find? (fun r => decide (r.id = j)))) :=
  ⟨by decide, by decide,
    c4_restricted_find_notfound [⟨7⟩] [2] 7 (by decide) (by decide)⟩

/-! ## Bulk upsert: partition, transaction, and identity collisions -/

def c5_existing : NGramRec :=
  { id := some (digestStandIn "a"), ngram := "a", frequency := 5, occurence := 2 }

def c5_insert : NGramRec :=
  { id := none, ngram := "a", frequency := 3, occurence := 1 }

theorem applyUpdate_map_id (t : List NGramRec) (it : NGramRec) :
    (applyUpdate t it).map NGramRec.id = t.map NGramRec.id := by
  unfold applyUpdate
  rw [List.map_map]
  have hfun : (NGramRec.id ∘ fun r : NGramRec => if r.id = it.id then it else r) =
      NGramRec.id := by
    funext x
    by_cases h : x.id = it.id <;> simp [Function.comp, h]
  rw [hfun]

theorem foldl_applyUpdate_map_id (l : List NGramRec) (t : List NGramRec) :
    ((l.foldl applyUpdate t).map NGramRec.id) = t.map NGramRec.id := by
  induction l generalizing t with
  | nil => rfl
  | cons it rest ih => rw [List.foldl_cons, ih, applyUpdate_map_id]

theorem applyInsert_ok (hash : String → String) (t : List NGramRec)
    (it : NGramRec) (u : List NGramRec)
    (h : applyInsert hash t it = Except.ok u) :
    u = t ++ [{ it with id := some (hash it.ngram) }] ∧
    ∀ r ∈ t, r.id ≠ some (hash it.ngram) ∧ r.ngram ≠ it.ngram := by
  simp only [applyInsert] at h
  split at h
  · exact Except.noConfusion h
  · next hcond =>
    injection h with hu
    subst hu
    refine ⟨rfl, ?_⟩
    intro r hr
    have h2 : ¬ (decide (r.id = some (hash it.ngram)) ||
        decide (r.ngram = it.ngram)) = true := by
      intro hcontra
      exact hcond (List.any_eq_true.mpr ⟨r, hr, hcontra⟩)
    constructor <;> (intro he; apply h2; simp [he])

theorem insertAll_nodup (hash : String → String) (l : List NGramRec) :
    ∀ t t' : List NGramRec, (t.map NGramRec.id).Nodup →
    insertAll hash l t = Except.ok t' → (t'.map NGramRec.id).Nodup := by
  induction l with
  | nil =>
    intro t t' hnd h
    simp only [insertAll] at h
    injection h with h1
    exact h1 ▸ hnd
  | cons it rest ih =>
    intro t t' hnd h
    simp only [insertAll] at h
    cases hins : applyInsert hash t it with
    | error e => rw [hins] at h; exact Except.noConfusion h
    | ok u =>
      rw [hins] at h
      obtain ⟨hu, hfresh⟩ := applyInsert_ok hash t it u hins
      refine ih u t' ?_ h
      subst hu
      rw [List.map_append]
      simp only [List.map_cons, List.map_nil]
      rw [List.nodup_append]
      refine ⟨hnd, List.nodup_singleton _, ?_⟩
      intro v hv
      simp only [List.mem_singleton]
      intro hveq
      obtain ⟨r, hr, hrid⟩ := List.mem_map.mp hv
      exact (hfresh r hr).1 (by rw [hrid, hveq])

/-- C5 counterexample: the table holds the row for ngram `"a"` with counters
`(5, 2)`; `bulk_update` with the single no-identity record for `"a"` with
frequency 3 raises `IntegrityError` (the computed identity collides with
the existing row), rather than producing the merged row with counters
`(8, 3)` as the claim states. -/
theorem c5_counterexample_collision_raises :
    bulk_update digestStandIn [c5_existing] [c5_insert] =
      Except.error "IntegrityError" ∧
    ∀ t', bulk_update digestStandIn [c5_existing] [c5_insert] ≠ Except.ok t' := by
  refine ⟨rfl, ?_⟩
  intro t' h
  rw [show bulk_update digestStandIn [c5_existing] [c5_insert] =
    Except.error "IntegrityError" from rfl] at h
  exact Except.noConfusion h

/-- C5 amended: `bulk_update` partitions its input into records with an
identity (written as UPDATEs) and records without one (INSERTs) and
commits both groups in a single transaction that rolls back in full on
error, and on hash-keyed entities it never creates duplicate identities
(a committed result keeps the identity column duplicate-free); but an
insert whose computed identity or unique ngram string collides with an
existing row raises `IntegrityError` — it is not treated as the existing
row with counters merged; that merging is performed upstream by the merge
worker, which fetches by hash before `bulk_update` runs. -/
theorem c5_bulk_update_partition_nodup (hash : String → String)
    (t : List NGramRec) :
    ((t.map NGramRec.id).Nodup → ∀ items t',
      bulk_update hash t items = Except.ok t' → (t'.map NGramRec.id).Nodup) ∧
    (∀ it, it.id = none →
      (∃ r ∈ t, r.id = some (hash it.ngram) ∨ r.ngram = it.ngram) →
      bulk_update hash t [it] = Except.error "IntegrityError") := by
  constructor
  · intro hnd items t' h
    unfold bulk_update at h
    refine insertAll_nodup hash _ _ t' ?_ h
    rw [foldl_applyUpdate_map_id]
    exact hnd
  · intro it hid hex
    rw [bulk_update_single_new hash t it hid]
    obtain ⟨r, hr, hor⟩ := hex
    have hany : t.any (fun x => decide (x.id = some (hash it.ngram)) ||
        decide (x.ngram = it.ngram)) = true := by
      refine List.any_eq_true.mpr ⟨r, hr, ?_⟩
      rcases hor with h1 | h1 <;> simp [h1]
    have hins : applyInsert hash t it = Except.error "IntegrityError" := by
      simp only [applyInsert]
      rw [if_pos hany]
    simp [insertAll, hins]

/-- Witness for C5 amended at concrete inputs: a successful run inserting
ngram `"a"` into the empty table keeps identities duplicate-free, and the
colliding insert against the table holding `"a"` raises
`IntegrityError`. -/
theorem c5_bulk_update_partition_nodup_witness :
    (([] : List NGramRec).map NGramRec.id).Nodup ∧
    ([freshRow digestStandIn "a" 3].map NGramRec.id).Nodup ∧
    bulk_update digestStandIn [c5_existing] [c5_insert] =
      Except.error "IntegrityError" := by
  refine ⟨by simp, ?_, ?_⟩
  · exact (c5_bulk_update_partition_nodup digestStandIn []).1 (by simp)
      [c5_insert] _ rfl
  · exact (c5_bulk_update_partition_nodup digestStandIn [c5_existing]).2
      c5_insert rfl ⟨c5_existing, by simp, Or.inl rfl⟩

/-! ## Exact-match lookup and field validation -/

/-- The entities of the repository that enumerate a `FIELDS` class variable:
`Document` (src/models/document.py), `NGram` (src/models/ngram.py) and
`Settings` (src/models/settings.py). -/
inductive Entity where
  | document
  | ngramModel
  | settingsModel
deriving DecidableEq

/-- The `FIELDS` class variables, verbatim from the three models. -/
def FIELDS : Entity → List String
  | .document => ["id", "doi", "url", "title", "authors", "content",
      "embedding", "abstract", "citations", "source", "date", "references",
      "ngrams"]
  | .ngramModel => ["id", "ngram", "frequency", "embedding", "occurence"]
  | .settingsModel => ["key", "value"]

/-- The mapped attribute names of each model, in declaration order: the
columns and relationships declared with SQLAlchemy metadata.  These are
the names `Select.filter_by` resolves; an unknown name raises during
statement construction, before any query is emitted. -/
def mappedAttrs : Entity → List String
  | .document => ["id", "doi", "url", "title", "content", "abstract",
      "citations", "source", "date", "references", "embedding", "authors",
      "ngrams"]
  | .ngramModel => ["id", "ngram", "embedding", "frequency", "occurence"]
  | .settingsModel => ["key", "value"]

/-- Embeds `DB.find_by_match` (src/helpers/db.py lines 296-303) and
`ServiceDB.find_by_match` (src/database/service.py lines 188-195): the
statement is built with `filter_by(**kwargs)` and `limit 1` and then
executed; `filter_by` resolves every predicate key against the mapped
attributes of the entity while the statement is being built — an unknown
key raises there, before the lookup runs — and the executed statement
returns the first row whose attributes equal every predicate value, or
`None`.  A row is modeled as an association list from attribute name to
rendered value. -/
def find_by_match (attrs : List String) (rows : List (List (String × String)))
    (preds : List (String × String)) :
    Except String (Option (List (String × String))) :=
  if preds.any (fun p => decide (p.1 ∉ attrs)) then Except.error "InvalidField"
  else Except.ok ((rows.filter (fun r =>
    preds.all (fun p => decide (r.lookup p.1 = some p.2)))).head?)

theorem fields_eq_mappedAttrs (e : Entity) (s : String) :
    s ∈ FIELDS e ↔ s ∈ mappedAttrs e := by
  cases e <;> simp [FIELDS, mappedAttrs] <;> tauto

/-- C9: `find_by_match` raises InvalidField when any supplied predicate key
is not one of the entity's enumerated `FIELDS`, before performing the
lookup (the error is the same for every table contents), and performs the
exact-match lookup when all keys are fields.  For each of the three
entities the enumerated `FIELDS` coincide with the mapped attribute names
that `filter_by` accepts, so the eager SQLAlchemy error is exactly the
InvalidField condition of the claim. -/
theorem c9_find_by_match_invalid_field (e : Entity)
    (preds : List (String × String)) (rows : List (List (String × String))) :
    ((∃ p ∈ preds, p.1 ∉ FIELDS e) →
      find_by_match (mappedAttrs e) rows preds = Except.error "InvalidField") ∧
    ((∀ p ∈ preds, p.1 ∈ FIELDS e) →
      find_by_match (mappedAttrs e) rows preds =
        Except.ok ((rows.filter (fun r =>
          preds.all (fun p => decide (r.lookup p.1 = some p.2)))).head?)) := by
  constructor
  · rintro ⟨p, hp, hnot⟩
    have hnm : p.1 ∉ mappedAttrs e :=
      fun h => hnot ((fields_eq_mappedAttrs e p.1).mpr h)
    unfold find_by_match
    rw [if_pos]
    exact List.any_eq_true.mpr ⟨p, hp, by simp [hnm]⟩
  · intro hall
    unfold find_by_match
    rw [if_neg]
    intro hany
    obtain ⟨p, hp, hd⟩ := List.any_eq_true.mp hany
    have hnm : p.1 ∉ mappedAttrs e := of_decide_eq_true hd
    exact hnm ((fields_eq_mappedAttrs e p.1).mp (hall p hp))

/-- Witness for C9 at a concrete input: the predicate key `"bogus"` is not a
Document field, and the lookup over any table errors with InvalidField. -/
theorem c9_find_by_match_invalid_field_witness :
    (∃ p ∈ [(("bogus" : String), ("1" : String))], p.1 ∉ FIELDS Entity.document) ∧
    find_by_match (mappedAttrs Entity.document) [] [("bogus", "1")] =
      Except.error "InvalidField" := by
  refine ⟨⟨("bogus", "1"), by decide, by decide⟩, ?_⟩
  exact (c9_find_by_match_invalid_field Entity.document [("bogus", "1")] []).1
    ⟨("bogus", "1"), by decide, by decide⟩

/-! ## The build pass as a trace of committed effects -/

/-- The atomic, externally visible effects of `CorpusController.build_vocab`
(src/controllers/corpus.py lines 217-243), in program order:
`clearVocab` (the fresh-run table reset), `setCheckpoint n` (a committed
`Settings.set "last_document_processed" n`), `mergeDoc i` (the committed
`bulk_update` of document number `i`'s merged ngram records),
`pruneSingletons` (the `delete_where occurence == 1` after the pass) and
`calcEmbeddings` (the embedding backfill). -/
inductive BuildAction where
  | clearVocab
  | setCheckpoint (n : Nat)
  | mergeDoc (i : Nat)
  | pruneSingletons
  | calcEmbeddings
deriving DecidableEq, Repr

/-- The effects of the `for index, document in enumerate(self, 1)` loop over
a corpus of `n` documents: document number `k` is skipped when
`resume and k <= last_document_processed`, and otherwise contributes its
merge commit followed by its checkpoint update. -/
def buildLoop (resume : Bool) (cp : Nat) : Nat → List BuildAction
  | 0 => []
  | n + 1 =>
    buildLoop resume cp n ++
      (if resume = true ∧ n + 1 ≤ cp then []
       else [BuildAction.mergeDoc (n + 1), BuildAction.setCheckpoint (n + 1)])

/-- The full effect trace of `build_vocab`: on a fresh run, clear the
vocabulary and persist checkpoint 0; then the document loop; then the
singleton pruning and the embedding backfill. -/
def build_vocab (resume : Bool) (cp len : Nat) : List BuildAction :=
  (if resume = true then []
   else [BuildAction.clearVocab, BuildAction.setCheckpoint 0]) ++
  (buildLoop resume cp len ++
    [BuildAction.pruneSingletons, BuildAction.calcEmbeddings])

/-- The value of `last_document_processed` after executing a list of actions,
starting from `c`: the last committed `setCheckpoint`. -/
def checkpointAfter (c : Nat) (tr : List BuildAction) : Nat :=
  tr.foldl
    (fun acc a =>
      match a with
      | BuildAction.setCheckpoint n => n
      | _ => acc) c

theorem checkpointAfter_append (c : Nat) (a b : List BuildAction) :
    checkpointAfter c (a ++ b) = checkpointAfter (checkpointAfter c a) b := by
  simp [checkpointAfter, List.foldl_append]

theorem mergeDoc_mem_buildLoop (r : Bool) (c0 i : Nat) (n : Nat) :
    BuildAction.mergeDoc i ∈ buildLoop r c0 n ↔
      1 ≤ i ∧ i ≤ n ∧ (r = true → c0 < i) := by
  induction n with
  | zero =>
    simp only [buildLoop, List.not_mem_nil, false_iff]
    rintro ⟨h1, h2, _⟩
    omega
  | succ n ih =>
    simp only [buildLoop, List.mem_append]
    rw [ih]
    by_cases hc : r = true ∧ n + 1 ≤ c0
    · rw [if_pos hc]
      simp only [List.not_mem_nil, or_false]
      constructor
      · rintro ⟨h1, h2, h3⟩
        exact ⟨h1, by omega, h3⟩
      · rintro ⟨h1, h2, h3⟩
        have hci : c0 < i := h3 hc.1
        have hle : n + 1 ≤ c0 := hc.2
        exact ⟨h1, by omega, h3⟩
    · rw [if_neg hc]
      have hmem2 : BuildAction.mergeDoc i ∈
          [BuildAction.mergeDoc (n + 1), BuildAction.setCheckpoint (n + 1)] ↔
          i = n + 1 := by
        simp
      rw [hmem2]
      constructor
      · rintro (⟨h1, h2, h3⟩ | hEq)
        · exact ⟨h1, by omega, h3⟩
        · subst hEq
          refine ⟨by omega, le_refl _, fun hrt => ?_⟩
          by_contra hcc
          exact hc ⟨hrt, by omega⟩
      · rintro ⟨h1, h2, h3⟩
        by_cases hle2 : i ≤ n
        · exact Or.inl ⟨h1, hle2, h3⟩
        · exact Or.inr (by omega)

theorem setCheckpoint_mem_buildLoop (r : Bool) (c0 i : Nat) (n : Nat) :
    BuildAction.setCheckpoint i ∈ buildLoop r c0 n ↔
      1 ≤ i ∧ i ≤ n ∧ (r = true → c0 < i) := by
  induction n with
  | zero =>
    simp only [buildLoop, List.not_mem_nil, false_iff]
    rintro ⟨h1, h2, _⟩
    omega
  | succ n ih =>
    simp only [buildLoop, List.mem_append]
    rw [ih]
    by_cases hc : r = true ∧ n + 1 ≤ c0
    · rw [if_pos hc]
      simp only [List.not_mem_nil, or_false]
      constructor
      · rintro ⟨h1, h2, h3⟩
        exact ⟨h1, by omega, h3⟩
      · rintro ⟨h1, h2, h3⟩
        have hci : c0 < i := h3 hc.1
        have hle : n + 1 ≤ c0 := hc.2
        exact ⟨h1, by omega, h3⟩
    · rw [if_neg hc]
      have hmem2 : BuildAction.setCheckpoint i ∈
          [BuildAction.mergeDoc (n + 1), BuildAction.setCheckpoint (n + 1)] ↔
          i = n + 1 := by
        simp
      rw [hmem2]
      constructor
      · rintro (⟨h1, h2, h3⟩ | hEq)
        · exact ⟨h1, by omega, h3⟩
        · subst hEq
          refine ⟨by omega, le_refl _, fun hrt => ?_⟩
          by_contra hcc
          exact hc ⟨hrt, by omega⟩
      · rintro ⟨h1, h2, h3⟩
        by_cases hle2 : i ≤ n
        · exact Or.inl ⟨h1, hle2, h3⟩
        · exact Or.inr (by omega)

theorem checkpointAfter_buildLoop_le (r : Bool) (c0 : Nat) :
    ∀ (n : Nat) (c k : Nat), c ≤ k → n ≤ k →
      checkpointAfter c (buildLoop r c0 n) ≤ k := by
  intro n
  induction n with
  | zero =>
    intro c k h1 h2
    simpa [buildLoop, checkpointAfter] using h1
  | succ n ih =>
    intro c k h1 h2
    simp only [buildLoop]
    rw [checkpointAfter_append]
    by_cases hc : r = true ∧ n + 1 ≤ c0
    · rw [if_pos hc]
      exact ih c k h1 (by omega)
    · rw [if_neg hc]
      have hval : checkpointAfter (checkpointAfter c (buildLoop r c0 n))
          [BuildAction.mergeDoc (n + 1), BuildAction.setCheckpoint (n + 1)] =
          n + 1 := rfl
      rw [hval]
      exact h2

theorem mergeDoc_mem_of_setCheckpoint_mem (r : Bool) (c0 : Nat) :
    ∀ (n : Nat) (p q : List BuildAction) (i : Nat),
      buildLoop r c0 n = p ++ q →
      BuildAction.setCheckpoint i ∈ p →
      BuildAction.mergeDoc i ∈ p := by
  intro n
  induction n with
  | zero =>
    intro p q i hsplit hset
    have hp : p = [] := (List.append_eq_nil.mp hsplit.symm).1
    subst hp
    simp at hset
  | succ n ih =>
    intro p q i hsplit hset
    simp only [buildLoop] at hsplit
    rcases List.append_eq_append_iff.mp hsplit with ⟨m, hm1, hm2⟩ | ⟨m, hm1, hm2⟩
    · subst hm1
      rcases List.mem_append.mp hset with hin | hin
      · have hchar := (setCheckpoint_mem_buildLoop r c0 i n).mp hin
        exact List.mem_append_left _ ((mergeDoc_mem_buildLoop r c0 i n).mpr hchar)
      · by_cases hc : r = true ∧ n + 1 ≤ c0
        · rw [if_pos hc] at hm2
          have hm0 : m = [] := (List.append_eq_nil.mp hm2.symm).1
          subst hm0
          simp at hin
        · rw [if_neg hc] at hm2
          have hsub : ∀ x ∈ m, x ∈
              ([BuildAction.mergeDoc (n + 1),
                BuildAction.setCheckpoint (n + 1)] : List BuildAction) := by
            intro x hx
            rw [hm2]
            exact List.mem_append_left _ hx
          have hi : i = n + 1 := by
            have h2 := hsub _ hin
            simpa using h2
          subst hi
          cases m with
          | nil => simp at hin
          | cons x m' =>
            have hx : x = BuildAction.mergeDoc (n + 1) := by
              injection hm2 with h1 _
              exact h1.symm
            subst hx
            exact List.mem_append_right _ (List.mem_cons_self _ _)
    · exact ih p m i hm1 hset

theorem checkpointAfter_lt_of_unchecked (r : Bool) (c0 : Nat) :
    ∀ (n : Nat) (p q : List BuildAction) (i c : Nat),
      buildLoop r c0 n = p ++ q →
      BuildAction.mergeDoc i ∈ p →
      BuildAction.setCheckpoint i ∉ p →
      c < i →
      checkpointAfter c p < i := by
  intro n
  induction n with
  | zero =>
    intro p q i c hsplit hm hs hc
    have hp : p = [] := (List.append_eq_nil.mp hsplit.symm).1
    subst hp
    simp at hm
  | succ n ih =>
    intro p q i c hsplit hm hs hc
    simp only [buildLoop] at hsplit
    rcases List.append_eq_append_iff.mp hsplit with ⟨m, hm1, hm2⟩ | ⟨m, hm1, hm2⟩
    · subst hm1
      by_cases hcb : r = true ∧ n + 1 ≤ c0
      · rw [if_pos hcb] at hm2
        have hm0 : m = [] := (List.append_eq_nil.mp hm2.symm).1
        subst hm0
        rw [List.append_nil] at hm hs ⊢
        exact ih _ [] i c (by rw [List.append_nil]) hm hs hc
      · rw [if_neg hcb] at hm2
        cases m with
        | nil =>
          rw [List.append_nil] at hm hs ⊢
          exact ih _ [] i c (by rw [List.append_nil]) hm hs hc
        | cons x m' =>
          have hx : x = BuildAction.mergeDoc (n + 1) := by
            injection hm2 with h1 _
            exact h1.symm
          subst hx
          cases m' with
          | nil =>
            rcases List.mem_append.mp hm with hin | hin
            · have hchar := (mergeDoc_mem_buildLoop r c0 i n).mp hin
              have hsetin : BuildAction.setCheckpoint i ∈ buildLoop r c0 n :=
                (setCheckpoint_mem_buildLoop r c0 i n).mpr hchar
              exact absurd (List.mem_append_left _ hsetin) hs
            · have hi : i = n + 1 := by simpa using hin
              subst hi
              rw [checkpointAfter_append]
              have hval : checkpointAfter (checkpointAfter c (buildLoop r c0 n))
                  [BuildAction.mergeDoc (n + 1)] =
                  checkpointAfter c (buildLoop r c0 n) := rfl
              rw [hval]
              have hb : checkpointAfter c (buildLoop r c0 n) ≤ n :=
                checkpointAfter_buildLoop_le r c0 n c n (by omega) (le_refl n)
              omega
          | cons y m'' =>
            have hy : y = BuildAction.setCheckpoint (n + 1) ∧ m'' = [] := by
              injection hm2 with h1 h2
              injection h2 with h3 h4
              exact ⟨h3.symm, (List.append_eq_nil.mp h4.symm).1⟩
            obtain ⟨hy1, hy2⟩ := hy
            subst hy1
            subst hy2
            rcases List.mem_append.mp hm with hin | hin
            · have hchar := (mergeDoc_mem_buildLoop r c0 i n).mp hin
              have hsetin : BuildAction.setCheckpoint i ∈ buildLoop r c0 n :=
                (setCheckpoint_mem_buildLoop r c0 i n).mpr hchar
              exact absurd (List.mem_append_left _ hsetin) hs
            · have hi : i = n + 1 := by simpa using hin
              subst hi
              have hsetp : BuildAction.setCheckpoint (n + 1) ∈
                  buildLoop r c0 n ++
                    [BuildAction.mergeDoc (n + 1),
                     BuildAction.setCheckpoint (n + 1)] :=
                List.mem_append_right _ (by simp)
              exact absurd hsetp hs
    · exact ih p m i c hm1 hm hs hc

theorem c6_helper (r : Bool) (c0 len c1 : Nat) (p q : List BuildAction)
    (hsplit : buildLoop r c0 len ++
        [BuildAction.pruneSingletons, BuildAction.calcEmbeddings] = p ++ q)
    (hc1 : ∀ i, BuildAction.mergeDoc i ∈ buildLoop r c0 len → c1 < i) :
    (∀ i, 1 ≤ i → BuildAction.setCheckpoint i ∈ p →
      BuildAction.mergeDoc i ∈ p) ∧
    (∀ i, BuildAction.mergeDoc i ∈ p → BuildAction.setCheckpoint i ∉ p →
      checkpointAfter c1 p < i ∧ 1 ≤ i ∧ i ≤ len) := by
  rcases List.append_eq_append_iff.mp hsplit with ⟨m, hm1, hm2⟩ | ⟨m, hm1, hm2⟩
  · subst hm1
    have hsub : ∀ x ∈ m, x ∈ ([BuildAction.pruneSingletons,
        BuildAction.calcEmbeddings] : List BuildAction) := by
      intro x hx
      rw [hm2]
      exact List.mem_append_left _ hx
    constructor
    · intro i h1 hset
      rcases List.mem_append.mp hset with hin | hin
      · exact List.mem_append_left _ ((mergeDoc_mem_buildLoop r c0 i len).mpr
          ((setCheckpoint_mem_buildLoop r c0 i len).mp hin))
      · have h2 := hsub _ hin
        simp at h2
    · intro i hmem hs
      rcases List.mem_append.mp hmem with hin | hin
      · have hsetin := (setCheckpoint_mem_buildLoop r c0 i len).mpr
          ((mergeDoc_mem_buildLoop r c0 i len).mp hin)
        exact absurd (List.mem_append_left _ hsetin) hs
      · have h2 := hsub _ hin
        simp at h2
  · constructor
    · intro i h1 hset
      exact mergeDoc_mem_of_setCheckpoint_mem r c0 len p m i hm1 hset
    · intro i hmem hs
      have hmloop : BuildAction.mergeDoc i ∈ buildLoop r c0 len := by
        rw [hm1]
        exact List.mem_append_left _ hmem
      have hbounds := (mergeDoc_mem_buildLoop r c0 i len).mp hmloop
      exact ⟨checkpointAfter_lt_of_unchecked r c0 len p m i c1 hm1 hmem hs
          (hc1 i hmloop),
        hbounds.1, hbounds.2.1⟩

/-- C6: during a build pass, the checkpoint is advanced to a document's
ordinal only after the merge of that document's ngram records has
committed, and an interruption between merge and checkpoint update leaves
the persisted checkpoint strictly below that ordinal, so a resumed run
(whose skip condition is `index ≤ last_document_processed`) merges that
document again rather than skipping it.  `p` is the prefix of the effect
trace committed before the interruption and `q` the part that never
ran. -/
theorem c6_checkpoint_advances_after_merge (resume : Bool) (cp len : Nat)
    (p q : List BuildAction)
    (hsplit : build_vocab resume cp len = p ++ q) :
    (∀ i, 1 ≤ i → BuildAction.setCheckpoint i ∈ p →
      BuildAction.mergeDoc i ∈ p) ∧
    (∀ i, BuildAction.mergeDoc i ∈ p → BuildAction.setCheckpoint i ∉ p →
      checkpointAfter cp p < i ∧
      BuildAction.mergeDoc i ∈ build_vocab true (checkpointAfter cp p) len) := by
  by_cases hres : resume = true
  · subst hres
    have hsplit2 : buildLoop true cp len ++ [BuildAction.pruneSingletons,
        BuildAction.calcEmbeddings] = p ++ q := by
      simpa [build_vocab] using hsplit
    have hc1 : ∀ i, BuildAction.mergeDoc i ∈ buildLoop true cp len → cp < i :=
      fun i hmi => ((mergeDoc_mem_buildLoop true cp i len).mp hmi).2.2 rfl
    obtain ⟨hA, hB⟩ := c6_helper true cp len cp p q hsplit2 hc1
    refine ⟨hA, ?_⟩
    intro i hmem hs
    obtain ⟨hlt, h1, h2⟩ := hB i hmem hs
    refine ⟨hlt, ?_⟩
    have hmm : BuildAction.mergeDoc i ∈ buildLoop true (checkpointAfter cp p) len :=
      (mergeDoc_mem_buildLoop true _ i len).mpr ⟨h1, h2, fun _ => hlt⟩
    have htr : build_vocab true (checkpointAfter cp p) len =
        buildLoop true (checkpointAfter cp p) len ++
          [BuildAction.pruneSingletons, BuildAction.calcEmbeddings] := by
      simp [build_vocab]
    rw [htr]
    exact List.mem_append_left _ hmm
  · have hres' : resume = false := by
      revert hres
      cases resume <;> simp
    subst hres'
    have hsplit2 : ([BuildAction.clearVocab,
        BuildAction.setCheckpoint 0] : List BuildAction) ++
        (buildLoop false cp len ++ [BuildAction.pruneSingletons,
          BuildAction.calcEmbeddings]) = p ++ q := by
      simpa [build_vocab] using hsplit
    rcases List.append_eq_append_iff.mp hsplit2 with ⟨m, hm1, hm2⟩ | ⟨m, hm1, hm2⟩
    · subst hm1
      have hc1 : ∀ i, BuildAction.mergeDoc i ∈ buildLoop false cp len → 0 < i :=
        fun i hmi => ((mergeDoc_mem_buildLoop false cp i len).mp hmi).1
      obtain ⟨hA, hB⟩ := c6_helper false cp len 0 m q hm2 hc1
      constructor
      · intro i h1 hset
        rcases List.mem_append.mp hset with hin | hin
        · have hz : i = 0 := by simpa using hin
          omega
        · exact List.mem_append_right _ (hA i h1 hin)
      · intro i hmem hs
        have hmm : BuildAction.mergeDoc i ∈ m := by
          rcases List.mem_append.mp hmem with hin | hin
          · simp at hin
          · exact hin
        have hsm : BuildAction.setCheckpoint i ∉ m :=
          fun hcc => hs (List.mem_append_right _ hcc)
        obtain ⟨hlt, h1, h2⟩ := hB i hmm hsm
        have hcp : checkpointAfter cp
            ([BuildAction.clearVocab, BuildAction.setCheckpoint 0] ++ m) =
            checkpointAfter 0 m := by
          rw [checkpointAfter_append]
          rfl
        rw [hcp]
        refine ⟨hlt, ?_⟩
        have hmm2 : BuildAction.mergeDoc i ∈
            buildLoop true (checkpointAfter 0 m) len :=
          (mergeDoc_mem_buildLoop true _ i len).mpr ⟨h1, h2, fun _ => hlt⟩
        have htr : build_vocab true (checkpointAfter 0 m) len =
            buildLoop true (checkpointAfter 0 m) len ++
              [BuildAction.pruneSingletons, BuildAction.calcEmbeddings] := by
          simp [build_vocab]
        rw [htr]
        exact List.mem_append_left _ hmm2
    · have hsub : ∀ x ∈ p, x ∈ ([BuildAction.clearVocab,
          BuildAction.setCheckpoint 0] : List BuildAction) := by
        intro x hx
        rw [hm1]
        exact List.mem_append_left _ hx
      constructor
      · intro i h1 hset
        have hz : i = 0 := by simpa using hsub _ hset
        omega
      · intro i hmem hs
        have h2 := hsub _ hmem
        simp at h2

/-- The committed prefix of the concrete interruption scenario used as
witness: a fresh 2-document run cut right after document 1's merge
commits, before its checkpoint update. -/
def c6p : List BuildAction :=
  [BuildAction.clearVocab, BuildAction.setCheckpoint 0, BuildAction.mergeDoc 1]

/-- The effects the interrupted witness run never executed. -/
def c6q : List BuildAction :=
  [BuildAction.setCheckpoint 1, BuildAction.mergeDoc 2,
   BuildAction.setCheckpoint 2, BuildAction.pruneSingletons,
   BuildAction.calcEmbeddings]

/-- Witness for C6 at a concrete input: a fresh run over 2 documents,
interrupted between the merge of document 1 and its checkpoint update;
the persisted checkpoint is still 0 and the resumed run merges document 1
again. -/
theorem c6_checkpoint_advances_after_merge_witness :
    build_vocab false 0 2 = c6p ++ c6q ∧
    (checkpointAfter 0 c6p < 1 ∧
     BuildAction.mergeDoc 1 ∈ build_vocab true (checkpointAfter 0 c6p) 2) := by
  have hsplit : build_vocab false 0 2 = c6p ++ c6q := by decide
  exact ⟨hsplit,
    (c6_checkpoint_advances_after_merge false 0 2 c6p c6q hsplit).2 1
      (by decide) (by decide)⟩

/-! ## Counter invariants across a build pass -/

/-- The table-mutating operations a build pass performs, in order: the
fresh-run `clear_vocab` (table drop and recreate), one `doc pairs` per
document (the filtered `(ngram, frequency)` items of the document handed
to the merge workers and committed by one `bulk_update`), and the final
`prune` (`delete_where occurence == 1`). -/
inductive PassOp where
  | clear
  | doc (pairs : List (String × Int))
  | prune
deriving Repr

/-- One document step: every pair is merged by a worker against the table as
it stood when the document started (workers read concurrently and the one
authoritative write is the single `bulk_update` of all produced records);
on an integrity error the transaction rolls back and the table is
unchanged. -/
def applyDoc (hash : String → String) (t : List NGramRec)
    (pairs : List (String × Int)) : List NGramRec :=
  match bulk_update hash t (pairs.map (process_ngrams hash t)) with
  | Except.ok t' => t'
  | Except.error _ => t

def applyOp (hash : String → String) (t : List NGramRec) :
    PassOp → List NGramRec
  | PassOp.clear => []
  | PassOp.doc pairs => applyDoc hash t pairs
  | PassOp.prune => t.filter (fun r => decide (r.occurence ≠ 1))

/-- The table after executing a prefix of the pass. -/
def runPass (hash : String → String) (t : List NGramRec)
    (ops : List PassOp) : List NGramRec :=
  ops.foldl (applyOp hash) t

/-- The claimed counter invariant: `frequency ≥ occurrence ≥ 0` on every
row. -/
def invCounters (t : List NGramRec) : Prop :=
  ∀ r ∈ t, 0 ≤ r.occurence ∧ r.occurence ≤ r.frequency

/-- No two rows share a primary key. -/
def nodupIds (t : List NGramRec) : Prop :=
  (t.map NGramRec.id).Nodup

/-- Between two table states, no persisted row's occurrence counter
decreases: any row of the earlier state and any row of the later state
with the same identity have non-decreasing occurrence. -/
def occMono (t t' : List NGramRec) : Prop :=
  ∀ v r r', r ∈ t → r' ∈ t' → r.id = some v → r'.id = some v →
    r.occurence ≤ r'.occurence

/-- The build pass dispatches only items with `frequency > 1`
(`[item for item in document.ngrams.items() if item[1] > 1]`). -/
def opFiltered : PassOp → Prop
  | PassOp.doc pairs => ∀ pr ∈ pairs, 1 < pr.2
  | _ => True

theorem eq_of_same_id (t : List NGramRec) (hnd : nodupIds t)
    (r r' : NGramRec) (hr : r ∈ t) (hr' : r' ∈ t) (v : String)
    (h1 : r.id = some v) (h2 : r'.id = some v) : r = r' := by
  have hinj := List.inj_on_of_nodup_map (f := NGramRec.id) hnd
  exact hinj hr hr' (by rw [h1, h2])

/-- Facts about every record the merge workers hand to `bulk_update` for one
document: its counters satisfy the invariant, and when it carries an
identity its occurrence is one more than that of the matching source
row. -/
theorem process_ngrams_facts (hash : String → String) (t : List NGramRec)
    (hinv : invCounters t) (pr : String × Int) (hf : 1 < pr.2) :
    (0 ≤ (process_ngrams hash t pr).occurence ∧
      (process_ngrams hash t pr).occurence ≤ (process_ngrams hash t pr).frequency) ∧
    (∀ v, (process_ngrams hash t pr).id = some v →
      ∃ rs ∈ t, rs.id = some v ∧
        (process_ngrams hash t pr).occurence = rs.occurence + 1) := by
  cases hfind : t.find? (fun y => decide (y.id = some (hash pr.1))) with
  | some r =>
    have hmem : r ∈ t := List.mem_of_find?_eq_some hfind
    have hrinv := hinv r hmem
    have hpn : process_ngrams hash t pr =
        { r with frequency := r.frequency + pr.2, occurence := r.occurence + 1 } :=
      process_ngrams_found hash t pr.1 pr.2 r hfind
    rw [hpn]
    refine ⟨⟨?_, ?_⟩, ?_⟩
    · show (0 : Int) ≤ r.occurence + 1
      omega
    · show r.occurence + 1 ≤ r.frequency + pr.2
      omega
    · intro v hv
      exact ⟨r, hmem, hv, rfl⟩
  | none =>
    have hpn : process_ngrams hash t pr =
        { id := none, ngram := pr.1, frequency := pr.2, occurence := 1 } :=
      process_ngrams_notfound hash t pr.1 pr.2 hfind
    rw [hpn]
    refine ⟨⟨?_, ?_⟩, ?_⟩
    · show (0 : Int) ≤ 1
      omega
    · show (1 : Int) ≤ pr.2
      omega
    · intro v hv
      exact Option.noConfusion hv

/-- The state preserved while the UPDATE group of one `bulk_update` is
applied: identities unchanged, counters invariant, occurrence
non-decreasing relative to the pre-document table. -/
def updState (t u : List NGramRec) : Prop :=
  u.map NGramRec.id = t.map NGramRec.id ∧
  invCounters u ∧
  (∀ v x x', x ∈ t → x' ∈ u → x.id = some v → x'.id = some v →
    x.occurence ≤ x'.occurence)

theorem updFold (t : List NGramRec) (hnd : nodupIds t) :
    ∀ (olds : List NGramRec) (u : List NGramRec),
    (∀ x ∈ olds, (0 ≤ x.occurence ∧ x.occurence ≤ x.frequency) ∧
      ∀ v, x.id = some v →
        ∃ rs ∈ t, rs.id = some v ∧ x.occurence = rs.occurence + 1) →
    updState t u →
    updState t (olds.foldl applyUpdate u) := by
  intro olds
  induction olds with
  | nil => intro u _ hst; exact hst
  | cons it rest ih =>
    intro u hx hst
    refine ih (applyUpdate u it) (fun x hmem => hx x (List.mem_cons_of_mem _ hmem)) ?_
    obtain ⟨hids, hinv, hmono⟩ := hst
    obtain ⟨hitinv, hitsrc⟩ := hx it (List.mem_cons_self _ _)
    refine ⟨by rw [applyUpdate_map_id, hids], ?_, ?_⟩
    · intro y hy
      obtain ⟨x0, hx0, hy0⟩ := List.mem_map.mp hy
      by_cases hc : x0.id = it.id
      · rw [if_pos hc] at hy0
        exact hy0 ▸ hitinv
      · rw [if_neg hc] at hy0
        exact hy0 ▸ hinv x0 hx0
    · intro v x x' hxt hx' hxv hx'v
      obtain ⟨x0, hx0, hy0⟩ := List.mem_map.mp hx'
      by_cases hc : x0.id = it.id
      · rw [if_pos hc] at hy0
        subst hy0
        obtain ⟨rs, hrs, hrsv, hocc⟩ := hitsrc v hx'v
        have hxeq : x = rs := eq_of_same_id t hnd x rs hxt hrs v hxv hrsv
        subst hxeq
        omega
      · rw [if_neg hc] at hy0
        subst hy0
        exact hmono v x x0 hxt hx0 hxv hx'v

/-- The state preserved while the INSERT group of one `bulk_update` is
flushed: counters invariant, identities duplicate-free, occurrence
non-decreasing relative to the pre-document table, and every pre-document
identity still present. -/
def insState (t u : List NGramRec) : Prop :=
  invCounters u ∧
  nodupIds u ∧
  (∀ v x x', x ∈ t → x' ∈ u → x.id = some v → x'.id = some v →
    x.occurence ≤ x'.occurence) ∧
  (∀ x ∈ t, x.id ∈ u.map NGramRec.id)

theorem insFold (hash : String → String) (t : List NGramRec) :
    ∀ (news : List NGramRec) (u u' : List NGramRec),
    (∀ x ∈ news, 0 ≤ x.occurence ∧ x.occurence ≤ x.frequency) →
    insState t u →
    insertAll hash news u = Except.ok u' →
    insState t u' := by
  intro news
  induction news with
  | nil =>
    intro u u' _ hst h
    simp only [insertAll] at h
    injection h with h1
    exact h1 ▸ hst
  | cons it rest ih =>
    intro u u' hx hst h
    simp only [insertAll] at h
    cases hins : applyInsert hash u it with
    | error e => rw [hins] at h; exact Except.noConfusion h
    | ok w =>
      rw [hins] at h
      obtain ⟨hw, hfresh⟩ := applyInsert_ok hash u it w hins
      subst hw
      refine ih _ u' (fun x hmem => hx x (List.mem_cons_of_mem _ hmem)) ?_ h
      obtain ⟨hinv, hnd, hmono, hsup⟩ := hst
      have hitinv := hx it (List.mem_cons_self _ _)
      refine ⟨?_, ?_, ?_, ?_⟩
      · intro y hy
        rcases List.mem_append.mp hy with hin | hin
        · exact hinv y hin
        · have hy2 : y = { it with id := some (hash it.ngram) } := by
            simpa using hin
          rw [hy2]
          exact hitinv
      · unfold nodupIds
        rw [List.map_append]
        simp only [List.map_cons, List.map_nil]
        rw [List.nodup_append]
        refine ⟨hnd, List.nodup_singleton _, ?_⟩
        intro v hv
        simp only [List.mem_singleton]
        intro hveq
        obtain ⟨r, hr, hrid⟩ := List.mem_map.mp hv
        exact (hfresh r hr).1 (by rw [hrid, hveq])
      · intro v x x' hxt hx' hxv hx'v
        rcases List.mem_append.mp hx' with hin | hin
        · exact hmono v x x' hxt hin hxv hx'v
        · have hx'2 : x' = { it with id := some (hash it.ngram) } := by
            simpa using hin
          have hxin := hsup x hxt
          obtain ⟨r, hr, hrid⟩ := List.mem_map.mp hxin
          have hrv : r.id = some (hash it.ngram) := by
            rw [hrid, hxv, ← hx'v, hx'2]
          exact absurd hrv (hfresh r hr).1
      · intro x hxt
        rw [List.map_append]
        exact List.mem_append_left _ (hsup x hxt)

theorem applyDoc_state (hash : String → String) (t : List NGramRec)
    (pairs : List (String × Int)) (hinv : invCounters t) (hnd : nodupIds t)
    (hf : ∀ pr ∈ pairs, 1 < pr.2) :
    invCounters (applyDoc hash t pairs) ∧ nodupIds (applyDoc hash t pairs) ∧
    occMono t (applyDoc hash t pairs) := by
  have hmonorefl : occMono t t := by
    intro v r r' hr hr' h1 h2
    rw [eq_of_same_id t hnd r r' hr hr' v h1 h2]
  unfold applyDoc
  cases hbu : bulk_update hash t (pairs.map (process_ngrams hash t)) with
  | error e => exact ⟨hinv, hnd, hmonorefl⟩
  | ok t' =>
    have hrec : ∀ x ∈ pairs.map (process_ngrams hash t),
        (0 ≤ x.occurence ∧ x.occurence ≤ x.frequency) ∧
        ∀ v, x.id = some v →
          ∃ rs ∈ t, rs.id = some v ∧ x.occurence = rs.occurence + 1 := by
      intro x hx
      obtain ⟨pr, hpr, hpx⟩ := List.mem_map.mp hx
      subst hpx
      exact process_ngrams_facts hash t hinv pr (hf pr hpr)
    unfold bulk_update at hbu
    have hupd := updFold t hnd
      ((pairs.map (process_ngrams hash t)).filter (fun it => decide (it.id ≠ none)))
      t (fun x hmem => hrec x (List.mem_of_mem_filter hmem))
      ⟨rfl, hinv, hmonorefl⟩
    obtain ⟨hids, hinvU, hmonoU⟩ := hupd
    have hstI : insState t
        (((pairs.map (process_ngrams hash t)).filter
          (fun it => decide (it.id ≠ none))).foldl applyUpdate t) := by
      refine ⟨hinvU, ?_, hmonoU, ?_⟩
      · unfold nodupIds
        rw [hids]
        exact hnd
      · intro x hxt
        rw [hids]
        exact List.mem_map_of_mem NGramRec.id hxt
    have hins := insFold hash t
      ((pairs.map (process_ngrams hash t)).filter (fun it => decide (it.id = none)))
      _ t'
      (fun x hmem => (hrec x (List.mem_of_mem_filter hmem)).1)
      hstI hbu
    exact ⟨hins.1, hins.2.1, hins.2.2.1⟩

theorem applyOp_step (hash : String → String) (t : List NGramRec) (op : PassOp)
    (hinv : invCounters t) (hnd : nodupIds t) (hf : opFiltered op) :
    invCounters (applyOp hash t op) ∧ nodupIds (applyOp hash t op) ∧
    occMono t (applyOp hash t op) := by
  cases op with
  | clear =>
    refine ⟨fun r hr => absurd hr (List.not_mem_nil r), ?_, ?_⟩
    · unfold nodupIds applyOp
      simp
    · intro v r r' _ hr'
      exact absurd hr' (List.not_mem_nil r')
  | doc pairs => exact applyDoc_state hash t pairs hinv hnd hf
  | prune =>
    refine ⟨?_, ?_, ?_⟩
    · intro r hr
      exact hinv r (List.mem_of_mem_filter hr)
    · unfold nodupIds applyOp
      exact ((List.filter_sublist t).map NGramRec.id).nodup hnd
    · intro v r r' hr hr' h1 h2
      have hr't : r' ∈ t := List.mem_of_mem_filter hr'
      rw [eq_of_same_id t hnd r r' hr hr't v h1 h2]

/-- C7: starting from a well-formed table, every intermediate table of a
build pass whose document steps carry only `frequency > 1` items
satisfies `frequency ≥ occurrence ≥ 0` on every row, and no single
operation of the pass decreases the occurrence counter of any persisted
identity. -/
theorem c7_pass_invariant (hash : String → String) (t0 : List NGramRec)
    (ops : List PassOp) (hinv : invCounters t0) (hnd : nodupIds t0)
    (hf : ∀ op ∈ ops, opFiltered op) :
    (∀ pre suf, ops = pre ++ suf →
      invCounters (runPass hash t0 pre) ∧ nodupIds (runPass hash t0 pre)) ∧
    (∀ pre op suf, ops = pre ++ op :: suf →
      occMono (runPass hash t0 pre) (applyOp hash (runPass hash t0 pre) op)) := by
  have haux : ∀ (pre : List PassOp) (t : List NGramRec), invCounters t →
      nodupIds t → (∀ op ∈ pre, opFiltered op) →
      invCounters (runPass hash t pre) ∧ nodupIds (runPass hash t pre) := by
    intro pre
    induction pre with
    | nil => intro t h1 h2 _; exact ⟨h1, h2⟩
    | cons op rest ih =>
      intro t h1 h2 h3
      have hstep := applyOp_step hash t op h1 h2 (h3 op (List.mem_cons_self _ _))
      exact ih (applyOp hash t op) hstep.1 hstep.2.1
        (fun o ho => h3 o (List.mem_cons_of_mem _ ho))
  constructor
  · intro pre suf heq
    refine haux pre t0 hinv hnd ?_
    intro op hop
    exact hf op (heq ▸ List.mem_append_left _ hop)
  · intro pre op suf heq
    have hpre : ∀ o ∈ pre, opFiltered o := by
      intro o ho
      exact hf o (heq ▸ List.mem_append_left _ ho)
    obtain ⟨h1, h2⟩ := haux pre t0 hinv hnd hpre
    have hop : opFiltered op :=
      hf op (heq ▸ List.mem_append_right _ (List.mem_cons_self _ _))
    exact (applyOp_step hash _ op h1 h2 hop).2.2

/-- Witness for C7 at a concrete input: a fresh pass over one document with
the single filtered pair `("a", 2)`, then pruning; all hypotheses hold
and the final table satisfies the invariant. -/
theorem c7_pass_invariant_witness :
    invCounters ([] : List NGramRec) ∧ nodupIds ([] : List NGramRec) ∧
    (∀ op ∈ [PassOp.clear, PassOp.doc [("a", 2)], PassOp.prune], opFiltered op) ∧
    (invCounters (runPass digestStandIn []
        [PassOp.clear, PassOp.doc [("a", 2)], PassOp.prune]) ∧
     nodupIds (runPass digestStandIn []
        [PassOp.clear, PassOp.doc [("a", 2)], PassOp.prune])) := by
  have h1 : invCounters ([] : List NGramRec) := by
    intro r hr
    exact absurd hr (List.not_mem_nil r)
  have h2 : nodupIds ([] : List NGramRec) := by
    unfold nodupIds
    simp
  have h3 : ∀ op ∈ [PassOp.clear, PassOp.doc [("a", 2)], PassOp.prune],
      opFiltered op := by
    intro op hop
    rcases List.mem_cons.mp hop with h | hop2
    · subst h; exact trivial
    · rcases List.mem_cons.mp hop2 with h | hop3
      · subst h
        intro pr hpr
        have hpr2 : pr = ("a", 2) := by simpa using hpr
        subst hpr2
        decide
      · rcases List.mem_cons.mp hop3 with h | hop4
        · subst h; exact trivial
        · exact absurd hop4 (List.not_mem_nil op)
  exact ⟨h1, h2, h3,
    (c7_pass_invariant digestStandIn [] _ h1 h2 h3).1 _ [] (by simp)⟩

end CommonSpec
